import Mathlib

/-!
Verification of the authorization cache (`pkg/project/auth/cache.go`).

The Go code is shallowly embedded: Go `map[string]string` values (such as
`map[types.UID]string`) become association lists, Go `sets.String` becomes
`Finset String`, the keyed `cache.Store` containers become lists of records
with key-based lookup/insert/delete, and fallible calls return `Except`.
-/

namespace ProjectAuth

/-- Association-list model of a Go `map[string]string`.
Lookup returns the first binding of the key. -/
abbrev KVMap := List (String × String)

/-- Model of Go map indexing `m[k]`, returning `none` when the key is absent. -/
def lookupKV : KVMap → String → Option String
  | [], _ => none
  | (k', v) :: rest, k => if k' = k then some v else lookupKV rest k

/-- Model of Go map assignment `m[k] = v`: replace the binding of `k` if
present, otherwise append it. -/
def insertKV : KVMap → String → String → KVMap
  | [], k, v => [(k, v)]
  | (k', v') :: rest, k, v =>
    if k' = k then (k, v) :: rest else (k', v') :: insertKV rest k v

/-- Overlay the entries of `m` onto `base`, modelling the Go loop
`for k, v := range m ... base[k] = v`. -/
def overlayKV (base : KVMap) (m : KVMap) : KVMap :=
  m.foldl (fun acc kv => insertKV acc kv.1 kv.2) base

/-- First-of-two option choice, used to state lookup results after an overlay. -/
def kvOr (a b : Option String) : Option String :=
  match a with
  | some v => some v
  | none => b

/-- A Go map never holds two bindings of one key; association lists that model
one satisfy this predicate. -/
def KeysNodup (m : KVMap) : Prop := (m.map Prod.fst).Nodup

instance (m : KVMap) : Decidable (KeysNodup m) :=
  inferInstanceAs (Decidable (m.map Prod.fst).Nodup)

/-- Model of `reviewRequest` from `cache.go`.  The Go field `namespace` is
called `ns` here because `namespace` is a Lean keyword; nil Go maps are the
empty association list. -/
structure reviewRequest where
  ns : String
  namespaceResourceVersion : String
  policyUIDToResourceVersion : KVMap
  policyBindingUIDToResourceVersion : KVMap
deriving DecidableEq

/-- Model of `reviewRecord` from `cache.go` (which embeds `*reviewRequest`). -/
structure reviewRecord extends reviewRequest where
  users : List String
  groups : List String
deriving DecidableEq

/-- Model of `skipReview` from `cache.go`; the nil pointers of the Go
signature become `Option`. -/
def skipReview (request : Option reviewRequest) (lastKnownValue : Option reviewRecord) : Bool :=
  match request with
  | none => true
  | some request =>
    match lastKnownValue with
    | none => false
    | some lastKnownValue =>
      if request.ns ≠ lastKnownValue.ns then false
      else if 0 < request.namespaceResourceVersion.length ∧
          request.namespaceResourceVersion ≠ lastKnownValue.namespaceResourceVersion then false
      else if ¬ (∀ kv ∈ request.policyBindingUIDToResourceVersion,
          lookupKV lastKnownValue.policyBindingUIDToResourceVersion kv.1 = some kv.2) then false
      else if ¬ (∀ kv ∈ request.policyUIDToResourceVersion,
          lookupKV lastKnownValue.policyUIDToResourceVersion kv.1 = some kv.2) then false
      else true

/-- Model of `statelessSkipSynchronizer.SkipSynchronize` from `cache.go`.
The variadic `LastSyncResourceVersioner` arguments are passed as the list of
their version tokens; the receiver `struct` has no fields, so it does not
appear. -/
def SkipSynchronize (prevState : String) (versionTokens : List String) : Bool × String :=
  let currentState := String.intercalate "," versionTokens
  (currentState == prevState, currentState)

/-- Model of `subjectRecord` from `cache.go`: the set of namespaces a subject
can access.  Go's `sets.String` becomes `Finset String`. -/
structure subjectRecord where
  subject : String
  namespaces : Finset String
deriving DecidableEq

/-- Model of a `cache.Store` keyed by `subjectRecordKeyFn` (the subject name). -/
abbrev SubjectStore := List subjectRecord

/-- Model of `Store.GetByKey` on a subject store. -/
def getRecord : SubjectStore → String → Option subjectRecord
  | [], _ => none
  | r :: rest, k => if r.subject = k then some r else getRecord rest k

/-- Model of `Store.Add` on a subject store: replace the record with the same
key if present, otherwise append. -/
def addRecord : SubjectStore → subjectRecord → SubjectStore
  | [], r => [r]
  | x :: rest, r => if x.subject = r.subject then r :: rest else x :: addRecord rest r

/-- Model of `Store.Delete` on a subject store: drop the record with the key. -/
def deleteRecord : SubjectStore → String → SubjectStore
  | [], _ => []
  | x :: rest, k => if x.subject = k then deleteRecord rest k else x :: deleteRecord rest k

/-- Model of a `cache.Store` keyed by `reviewRecordKeyFn` (the namespace). -/
abbrev ReviewStore := List reviewRecord

/-- Model of `Store.GetByKey` on the review record store. -/
def getReview : ReviewStore → String → Option reviewRecord
  | [], _ => none
  | r :: rest, k => if r.ns = k then some r else getReview rest k

/-- Model of `Store.Add` on the review record store. -/
def addReview : ReviewStore → reviewRecord → ReviewStore
  | [], r => [r]
  | x :: rest, r => if x.ns = r.ns then r :: rest else x :: addReview rest r

/-- Model of `Store.Delete` on the review record store. -/
def deleteReview : ReviewStore → String → ReviewStore
  | [], _ => []
  | x :: rest, k => if x.ns = k then deleteReview rest k else x :: deleteReview rest k

/-- Model of `lastKnown` from `cache.go`.  `cache.Store.GetByKey` never
returns an error, so the Go error result is constantly nil and omitted. -/
def lastKnown (reviewRecordStore : ReviewStore) (ns : String) : Option reviewRecord :=
  getReview reviewRecordStore ns

/-- Model of `deleteNamespaceFromSubjects` from `cache.go`: remove the
namespace from each listed subject's record, deleting records that become
empty. -/
def deleteNamespaceFromSubjects : SubjectStore → List String → String → SubjectStore
  | store, [], _ => store
  | store, subject :: rest, ns =>
    let store' :=
      match getRecord store subject with
      | some r =>
        let remaining := r.namespaces.erase ns
        if remaining = ∅ then deleteRecord store subject
        else addRecord store { r with namespaces := remaining }
      | none => store
    deleteNamespaceFromSubjects store' rest ns

/-- Model of `addSubjectsToNamespace` from `cache.go`: upsert each subject's
record and insert the namespace into it. -/
def addSubjectsToNamespace : SubjectStore → List String → String → SubjectStore
  | store, [], _ => store
  | store, subject :: rest, ns =>
    let store' :=
      match getRecord store subject with
      | some r => addRecord store { r with namespaces := insert ns r.namespaces }
      | none => addRecord store { subject := subject, namespaces := {ns} }
    addSubjectsToNamespace store' rest ns

/-- Model of the `Review` interface result: `Users()`, `Groups()`,
`EvaluationError()`. -/
structure Review where
  users : List String
  groups : List String
  evaluationError : String
deriving DecidableEq

/-- Model of `cacheReviewRecord` from `cache.go`: build a fresh record,
inherit `lastKnownValue`'s version data, overlay the request's, and `Add` it
to the store. -/
def cacheReviewRecord (request : reviewRequest) (lastKnownValue : Option reviewRecord)
    (review : Review) (reviewRecordStore : ReviewStore) : ReviewStore :=
  let base : reviewRecord :=
    { ns := request.ns, namespaceResourceVersion := "",
      policyUIDToResourceVersion := [], policyBindingUIDToResourceVersion := [],
      users := review.users, groups := review.groups }
  let inherited :=
    match lastKnownValue with
    | some lk =>
      { base with
        namespaceResourceVersion := lk.namespaceResourceVersion,
        policyUIDToResourceVersion := overlayKV [] lk.policyUIDToResourceVersion,
        policyBindingUIDToResourceVersion := overlayKV [] lk.policyBindingUIDToResourceVersion }
    | none => base
  let updated :=
    { inherited with
      namespaceResourceVersion :=
        if 0 < request.namespaceResourceVersion.length then request.namespaceResourceVersion
        else inherited.namespaceResourceVersion,
      policyUIDToResourceVersion :=
        overlayKV inherited.policyUIDToResourceVersion request.policyUIDToResourceVersion,
      policyBindingUIDToResourceVersion :=
        overlayKV inherited.policyBindingUIDToResourceVersion request.policyBindingUIDToResourceVersion }
  addReview reviewRecordStore updated

/-- A watcher notification delivered by `notifyWatchers`: the namespace and
the user and group sets passed to `GroupMembershipChanged`. -/
abbrev Notification := String × Finset String × Finset String

/-- The result of one `syncRequest` call: the three (possibly updated) stores,
the notifications fired, and the returned error. -/
structure SyncOutcome where
  userStore : SubjectStore
  groupStore : SubjectStore
  reviewStore : ReviewStore
  notifications : List Notification
  err : Option String
deriving DecidableEq

/-- Model of `AuthorizationCache.syncRequest` from `cache.go`.  The reviewer
dependency is passed as a function returning `Except` for the Go
`(Review, error)` pair. -/
def syncRequest (reviewer : String → Except String Review) (request : reviewRequest)
    (userSubjectRecordStore groupSubjectRecordStore : SubjectStore)
    (reviewRecordStore : ReviewStore) : SyncOutcome :=
  let lastKnownValue := lastKnown reviewRecordStore request.ns
  if skipReview (some request) lastKnownValue then
    ⟨userSubjectRecordStore, groupSubjectRecordStore, reviewRecordStore, [], none⟩
  else
    match reviewer request.ns with
    | .error e => ⟨userSubjectRecordStore, groupSubjectRecordStore, reviewRecordStore, [], some e⟩
    | .ok review =>
      let usersToRemove : Finset String :=
        match lastKnownValue with
        | some lk => lk.users.toFinset \ review.users.toFinset
        | none => ∅
      let groupsToRemove : Finset String :=
        match lastKnownValue with
        | some lk => lk.groups.toFinset \ review.groups.toFinset
        | none => ∅
      let us1 := deleteNamespaceFromSubjects userSubjectRecordStore
        (usersToRemove.sort (· ≤ ·)) request.ns
      let gs1 := deleteNamespaceFromSubjects groupSubjectRecordStore
        (groupsToRemove.sort (· ≤ ·)) request.ns
      let us2 := addSubjectsToNamespace us1 review.users request.ns
      let gs2 := addSubjectsToNamespace gs1 review.groups request.ns
      let rs1 := cacheReviewRecord request lastKnownValue review reviewRecordStore
      let errOut :=
        if 0 < review.evaluationError.length then some review.evaluationError else none
      ⟨us2, gs2, rs1, [(request.ns, review.users.toFinset, review.groups.toFinset)], errOut⟩

/-- The record-deletion loop of `purgeDeletedNamespaces`: walk the snapshot of
the review record store, and for every record whose namespace is gone, strip
it from its subjects and delete it. -/
def purgeLoop (newNamespaces : Finset String) :
    List reviewRecord → SubjectStore × SubjectStore × ReviewStore →
      SubjectStore × SubjectStore × ReviewStore
  | [], acc => acc
  | rr :: rest, (u, g, s) =>
    if rr.ns ∈ newNamespaces then purgeLoop newNamespaces rest (u, g, s)
    else
      purgeLoop newNamespaces rest
        (deleteNamespaceFromSubjects u rr.users rr.ns,
         deleteNamespaceFromSubjects g rr.groups rr.ns,
         deleteReview s rr.ns)

/-- Model of `AuthorizationCache.purgeDeletedNamespaces` from `cache.go`.
The watcher fan-out is returned as the list of notifications fired. -/
def purgeDeletedNamespaces (oldNamespaces newNamespaces : Finset String)
    (userSubjectRecordStore groupSubjectRecordStore : SubjectStore)
    (reviewRecordStore : ReviewStore) :
    SubjectStore × SubjectStore × ReviewStore × List Notification :=
  let result := purgeLoop newNamespaces reviewRecordStore
    (userSubjectRecordStore, groupSubjectRecordStore, reviewRecordStore)
  let notifications := ((oldNamespaces \ newNamespaces).sort (· ≤ ·)).map
    (fun ns => (ns, (∅ : Finset String), (∅ : Finset String)))
  (result.1, result.2.1, result.2.2, notifications)

/-- Model of `AuthorizationCache.invalidateCache` from `cache.go`.  The two
cluster listers are passed as `Option` lists of resource versions, `none`
standing for a lister error (which makes the Go code return early).
Go's `sets.String` is a map, a reference type: the assignment
`ac.clusterPolicyResourceVersions = temporaryVersions` makes the stored
policy field alias the temporary set, which the binding pass then clears
and refills with the binding resource versions.  The model reproduces this
aliasing: when the policy branch fired and the binding list succeeds, the
returned stored policy set is the binding resource-version set; on a
binding-lister error the early return happens before the clear, so the
stored policy set is still the computed policy set. -/
def invalidateCache (storedPolicy storedBinding : Finset String)
    (clusterPolicies clusterBindings : Option (List String)) :
    Bool × Finset String × Finset String :=
  match clusterPolicies with
  | none => (false, storedPolicy, storedBinding)
  | some ps =>
    let temp := ps.toFinset
    let inv1 : Bool := decide (storedPolicy.card ≠ temp.card ∨ ¬ temp ⊆ storedPolicy)
    match clusterBindings with
    | none => (inv1, if inv1 then temp else storedPolicy, storedBinding)
    | some bs =>
      let temp2 := bs.toFinset
      let storedPolicy' := if inv1 then temp2 else storedPolicy
      let inv2 : Bool := decide (storedBinding.card ≠ temp2.card ∨ ¬ temp2 ⊆ storedBinding)
      let storedBinding' := if inv2 then temp2 else storedBinding
      (inv1 || inv2, storedPolicy', storedBinding')

/-- A Policy or PolicyBinding document as seen by the synchronization passes:
its namespace, UID and resource version. -/
structure PolicyDoc where
  ns : String
  uid : String
  resourceVersion : String
deriving DecidableEq

/-- The upstream world one `synchronize` cycle observes: the namespace store
snapshot (name, resource version), the policy and binding lists (`none` for a
lister error), the cluster-scoped resource-version lists, the reviewer, and
the two composite version tokens fed to the skip synchronizer. -/
structure Env where
  namespaces : List (String × String)
  policies : Option (List PolicyDoc)
  policyBindings : Option (List PolicyDoc)
  clusterPolicies : Option (List String)
  clusterBindings : Option (List String)
  reviewer : String → Except String Review
  lastSyncResourceVersion : String
  policyLastSyncResourceVersion : String

/-- The mutable fields of `AuthorizationCache` that `synchronize` touches. -/
structure ACState where
  allKnownNamespaces : Finset String
  userSubjectRecordStore : SubjectStore
  groupSubjectRecordStore : SubjectStore
  reviewRecordStore : ReviewStore
  clusterPolicyResourceVersions : Finset String
  clusterBindingResourceVersions : Finset String
  lastState : String
deriving DecidableEq

/-- One synchronization pass: run `syncRequest` over a list of requests,
threading the stores and collecting notifications; `syncRequest` errors are
logged and dropped, as in the Go passes. -/
def runRequests (reviewer : String → Except String Review) :
    List reviewRequest → SubjectStore → SubjectStore → ReviewStore → List Notification →
      SubjectStore × SubjectStore × ReviewStore × List Notification
  | [], us, gs, rs, notifs => (us, gs, rs, notifs)
  | req :: rest, us, gs, rs, notifs =>
    let out := syncRequest reviewer req us gs rs
    runRequests reviewer rest out.userStore out.groupStore out.reviewStore
      (notifs ++ out.notifications)

/-- The review requests built by `synchronizeNamespaces`: name and namespace
resource version only. -/
def namespaceRequests (namespaces : List (String × String)) : List reviewRequest :=
  namespaces.map fun p =>
    { ns := p.1, namespaceResourceVersion := p.2,
      policyUIDToResourceVersion := [], policyBindingUIDToResourceVersion := [] }

/-- The review requests built by `synchronizePolicies`: a single-entry
policy-UID version map. -/
def policyRequests (docs : List PolicyDoc) : List reviewRequest :=
  docs.map fun p =>
    { ns := p.ns, namespaceResourceVersion := "",
      policyUIDToResourceVersion := [(p.uid, p.resourceVersion)],
      policyBindingUIDToResourceVersion := [] }

/-- The review requests built by `synchronizePolicyBindings`: a single-entry
binding-UID version map. -/
def bindingRequests (docs : List PolicyDoc) : List reviewRequest :=
  docs.map fun p =>
    { ns := p.ns, namespaceResourceVersion := "",
      policyUIDToResourceVersion := [],
      policyBindingUIDToResourceVersion := [(p.uid, p.resourceVersion)] }

/-- Model of `AuthorizationCache.synchronize` from `cache.go`: skip gate, cache
invalidation with fresh stores on a full rebuild, the three passes, the purge,
and the final state/handle updates.  Returns the new state and the
notifications fired during the cycle. -/
def synchronize (env : Env) (st : ACState) : ACState × List Notification :=
  let skipResult := SkipSynchronize st.lastState
    [env.lastSyncResourceVersion, env.policyLastSyncResourceVersion]
  if skipResult.1 then (st, [])
  else
    let inv := invalidateCache st.clusterPolicyResourceVersions
      st.clusterBindingResourceVersions env.clusterPolicies env.clusterBindings
    let us0 := if inv.1 then [] else st.userSubjectRecordStore
    let gs0 := if inv.1 then [] else st.groupSubjectRecordStore
    let rs0 := if inv.1 then [] else st.reviewRecordStore
    let newKnown := (env.namespaces.map Prod.fst).toFinset
    let p1 := runRequests env.reviewer (namespaceRequests env.namespaces) us0 gs0 rs0 []
    let p2 :=
      match env.policies with
      | some docs => runRequests env.reviewer (policyRequests docs) p1.1 p1.2.1 p1.2.2.1 p1.2.2.2
      | none => p1
    let p3 :=
      match env.policyBindings with
      | some docs => runRequests env.reviewer (bindingRequests docs) p2.1 p2.2.1 p2.2.2.1 p2.2.2.2
      | none => p2
    let p4 := purgeDeletedNamespaces st.allKnownNamespaces newKnown p3.1 p3.2.1 p3.2.2.1
    ({ allKnownNamespaces := newKnown,
       userSubjectRecordStore := p4.1,
       groupSubjectRecordStore := p4.2.1,
       reviewRecordStore := p4.2.2.1,
       clusterPolicyResourceVersions := inv.2.1,
       clusterBindingResourceVersions := inv.2.2,
       lastState := skipResult.2 },
     p3.2.2.2 ++ p4.2.2.2)

/-- Model of `AuthorizationCache.List` from `cache.go` (named `scopedList`
because `List` clashes with the Lean core type).  The namespace store maps
names to namespace objects (represented by their resource version, which the
result does not use beyond existence); the scope evaluator's answer is passed
as the `allowedNamespaces` set.  The returned list holds the names of the
returned namespace objects, in the order the Go loop appends them. -/
def userNamespaces (userStore : SubjectStore) (username : String) : Finset String :=
  match getRecord userStore username with
  | some r => r.namespaces
  | none => ∅

/-- The loop body of the group pass of `AuthorizationCache.List`: union the
group subject record's namespaces into the accumulated key set. -/
def unionGroupNamespaces (groupStore : SubjectStore) (ks : Finset String)
    (g : String) : Finset String :=
  match getRecord groupStore g with
  | some r => ks ∪ r.namespaces
  | none => ks

/-- The key set assembled by `AuthorizationCache.List`: the user's namespaces
unioned with every group's namespaces. -/
def collectKeys (userStore groupStore : SubjectStore) (username : String)
    (groups : List String) : Finset String :=
  groups.foldl (unionGroupNamespaces groupStore) (userNamespaces userStore username)

def scopedList (userSubjectRecordStore groupSubjectRecordStore : SubjectStore)
    (namespaceStore : KVMap) (allowedNamespaces : Finset String)
    (username : String) (groups : List String) : List String :=
  ((collectKeys userSubjectRecordStore groupSubjectRecordStore username groups).sort
      (· ≤ ·)).filter
    (fun k => (lookupKV namespaceStore k).isSome &&
      (decide (("*" : String) ∈ allowedNamespaces) || decide (k ∈ allowedNamespaces)))

/-- Invariant I2 of the specification: no subject record has an empty
namespace set. -/
def noEmptySubjects (store : SubjectStore) : Prop :=
  ∀ r ∈ store, r.namespaces ≠ ∅

instance (store : SubjectStore) : Decidable (noEmptySubjects store) :=
  inferInstanceAs (Decidable (∀ r ∈ store, r.namespaces ≠ ∅))

/-- The store contains a record for `subj` listing `ns`. -/
def hasPair (store : SubjectStore) (subj ns : String) : Prop :=
  ∃ r ∈ store, r.subject = subj ∧ ns ∈ r.namespaces

instance (store : SubjectStore) (subj ns : String) : Decidable (hasPair store subj ns) :=
  inferInstanceAs (Decidable (∃ r ∈ store, r.subject = subj ∧ ns ∈ r.namespaces))

/-- The subject keys of the store are pairwise distinct, as in any keyed
`cache.Store`. -/
def SubjectKeysNodup (store : SubjectStore) : Prop :=
  (store.map subjectRecord.subject).Nodup

instance (store : SubjectStore) : Decidable (SubjectKeysNodup store) :=
  inferInstanceAs (Decidable (store.map subjectRecord.subject).Nodup)

theorem length_pos_iff_ne_empty (s : String) : 0 < s.length ↔ s ≠ "" := by
  cases s with
  | mk data =>
    cases data with
    | nil => simp [String.length]
    | cons c cs =>
      simp only [String.length]
      constructor
      · intro _ h
        have := congrArg String.data h
        simp at this
      · intro _
        simp

theorem lookupKV_insertKV_self (m : KVMap) (k v : String) :
    lookupKV (insertKV m k v) k = some v := by
  induction m with
  | nil => simp [insertKV, lookupKV]
  | cons hd tl ih =>
    obtain ⟨a, b⟩ := hd
    by_cases hak : a = k
    · simp [insertKV, hak, lookupKV]
    · simp [insertKV, hak, lookupKV, ih]

theorem lookupKV_insertKV_ne (m : KVMap) (k v q : String) (hkq : k ≠ q) :
    lookupKV (insertKV m k v) q = lookupKV m q := by
  induction m with
  | nil => simp [insertKV, lookupKV, hkq]
  | cons hd tl ih =>
    obtain ⟨a, b⟩ := hd
    by_cases hak : a = k
    · subst hak
      simp [insertKV, lookupKV, hkq]
    · by_cases haq : a = q
      · subst haq
        simp [insertKV, hak, lookupKV]
      · simp [insertKV, hak, lookupKV, haq, ih]

theorem lookupKV_insertKV (m : KVMap) (k v q : String) :
    lookupKV (insertKV m k v) q = if k = q then some v else lookupKV m q := by
  by_cases hkq : k = q
  · subst hkq
    simp [lookupKV_insertKV_self]
  · simp [hkq, lookupKV_insertKV_ne m k v q hkq]

theorem lookupKV_eq_none_of_not_mem (m : KVMap) (k : String)
    (h : k ∉ m.map Prod.fst) : lookupKV m k = none := by
  induction m with
  | nil => rfl
  | cons hd tl ih =>
    obtain ⟨a, b⟩ := hd
    simp only [List.map_cons, List.mem_cons, not_or] at h
    have hak : ¬ a = k := fun hh => h.1 hh.symm
    simp only [lookupKV, if_neg hak]
    exact ih h.2

theorem lookupKV_overlayKV (m : KVMap) (base : KVMap) (q : String)
    (h : KeysNodup m) :
    lookupKV (overlayKV base m) q = kvOr (lookupKV m q) (lookupKV base q) := by
  induction m generalizing base with
  | nil => simp [overlayKV, lookupKV, kvOr]
  | cons hd tl ih =>
    obtain ⟨a, b⟩ := hd
    simp only [KeysNodup, List.map_cons, List.nodup_cons] at h
    have step : overlayKV base ((a, b) :: tl) = overlayKV (insertKV base a b) tl := by
      simp [overlayKV]
    rw [step, ih (insertKV base a b) h.2, lookupKV_insertKV]
    by_cases haq : a = q
    · have hq : lookupKV tl q = none := by
        rw [← haq]
        exact lookupKV_eq_none_of_not_mem tl a h.1
      rw [hq]
      simp [lookupKV, haq, kvOr]
    · cases hv : lookupKV tl q <;> simp [lookupKV, haq, kvOr, hv]

/-- C1 counterexample: `skipReview` on a nil request returns true, although
the claim requires a non-nil request for a skip. -/
theorem skipReview_nil_request_counterexample :
    skipReview none none = true ∧ ¬ ((none : Option reviewRequest) ≠ none) :=
  ⟨rfl, fun h => h rfl⟩

/-- C1 (amended): `skipReview` returns true when the request is nil;
otherwise it returns true exactly when `lastKnown` is non-nil, the namespaces
match, a non-empty request namespace resource version equals the stored one,
and every policy-UID and binding-UID version pair of the request exists with
the same version in the stored maps. -/
theorem skipReview_iff (request : Option reviewRequest) (lastKnownValue : Option reviewRecord) :
    skipReview request lastKnownValue = true ↔
      request = none ∨
      ∃ req lk, request = some req ∧ lastKnownValue = some lk ∧
        req.ns = lk.ns ∧
        (req.namespaceResourceVersion ≠ "" →
          req.namespaceResourceVersion = lk.namespaceResourceVersion) ∧
        (∀ kv ∈ req.policyUIDToResourceVersion,
          lookupKV lk.policyUIDToResourceVersion kv.1 = some kv.2) ∧
        (∀ kv ∈ req.policyBindingUIDToResourceVersion,
          lookupKV lk.policyBindingUIDToResourceVersion kv.1 = some kv.2) := by
  cases request with
  | none => simp [skipReview]
  | some req =>
    cases lastKnownValue with
    | none => simp [skipReview]
    | some lk =>
      constructor
      · intro h
        simp only [skipReview] at h
        split_ifs at h with h1 h2 h3 h4
        refine Or.inr ⟨req, lk, rfl, rfl, not_not.mp h1, ?_, h4, h3⟩
        intro hne
        by_contra hab
        exact h2 ⟨(length_pos_iff_ne_empty _).mpr hne, hab⟩
      · rintro (hnone | ⟨req', lk', hreq, hlk, hns, hrv, hp, hb⟩)
        · exact absurd hnone (by simp)
        · have hreq2 : req = req' := by injection hreq
          have hlk2 : lk = lk' := by injection hlk
          subst hreq2
          subst hlk2
          simp only [skipReview]
          have h2 : ¬ (0 < req.namespaceResourceVersion.length ∧
              req.namespaceResourceVersion ≠ lk.namespaceResourceVersion) := by
            rintro ⟨hpos, hneq⟩
            exact hneq (hrv ((length_pos_iff_ne_empty _).mp hpos))
          rw [if_neg (not_not_intro hns), if_neg h2, if_neg (not_not_intro hb),
            if_neg (not_not_intro hp)]

/-- C8: the stateless skip synchronizer returns the comma-joined token of the
sources' versions, skips exactly when it equals the previous token, and is a
pure function of its inputs. -/
theorem statelessSkipSynchronize_spec (prevState : String) (versionTokens : List String) :
    (SkipSynchronize prevState versionTokens).2 = String.intercalate "," versionTokens ∧
    ((SkipSynchronize prevState versionTokens).1 = true ↔
      String.intercalate "," versionTokens = prevState) ∧
    SkipSynchronize prevState versionTokens = SkipSynchronize prevState versionTokens := by
  refine ⟨rfl, ?_, rfl⟩
  simp [SkipSynchronize]

theorem lookupKV_nil (k : String) : lookupKV [] k = none := rfl

theorem kvOr_none (a : Option String) : kvOr a none = a := by
  cases a <;> rfl

theorem getReview_addReview (s : ReviewStore) (r : reviewRecord) (k : String) :
    getReview (addReview s r) k = if r.ns = k then some r else getReview s k := by
  induction s with
  | nil => rfl
  | cons x rest ih =>
    by_cases hx : x.ns = r.ns
    · simp only [addReview, if_pos hx, getReview]
      by_cases hk : r.ns = k
      · simp [hk]
      · have hxk : ¬ x.ns = k := by rw [hx]; exact hk
        simp [hk, getReview, hxk]
    · simp only [addReview, if_neg hx, getReview]
      by_cases hxk : x.ns = k
      · have hrk : ¬ r.ns = k := by
          rw [← hxk]
          exact fun h => hx h.symm
        simp [getReview, hxk, hrk]
      · simp [getReview, hxk, ih]

/-- C2: `cacheReviewRecord` stores, under the request's namespace, a record
carrying the review's users and groups, whose namespace resource version
comes from the request when non-empty and from `lastKnown` otherwise, and
whose version maps are `lastKnown`'s maps overlaid with the request's
entries; consequently a request carrying no policy entries preserves all of
`lastKnown`'s policy versions, and likewise for bindings. -/
theorem cacheReviewRecord_spec (request : reviewRequest) (lastKnownValue : Option reviewRecord)
    (review : Review) (reviewRecordStore : ReviewStore)
    (hreqp : KeysNodup request.policyUIDToResourceVersion)
    (hreqb : KeysNodup request.policyBindingUIDToResourceVersion)
    (hlkp : ∀ lk, lastKnownValue = some lk → KeysNodup lk.policyUIDToResourceVersion)
    (hlkb : ∀ lk, lastKnownValue = some lk → KeysNodup lk.policyBindingUIDToResourceVersion) :
    ∃ r, getReview (cacheReviewRecord request lastKnownValue review reviewRecordStore) request.ns
        = some r ∧
      r.users = review.users ∧
      r.groups = review.groups ∧
      r.namespaceResourceVersion =
        (if request.namespaceResourceVersion ≠ "" then request.namespaceResourceVersion
          else
            match lastKnownValue with
            | some lk => lk.namespaceResourceVersion
            | none => "") ∧
      (∀ k, lookupKV r.policyUIDToResourceVersion k =
        kvOr (lookupKV request.policyUIDToResourceVersion k)
          (match lastKnownValue with
            | some lk => lookupKV lk.policyUIDToResourceVersion k
            | none => none)) ∧
      (∀ k, lookupKV r.policyBindingUIDToResourceVersion k =
        kvOr (lookupKV request.policyBindingUIDToResourceVersion k)
          (match lastKnownValue with
            | some lk => lookupKV lk.policyBindingUIDToResourceVersion k
            | none => none)) ∧
      (request.policyUIDToResourceVersion = [] →
        ∀ k, lookupKV r.policyUIDToResourceVersion k =
          match lastKnownValue with
          | some lk => lookupKV lk.policyUIDToResourceVersion k
          | none => none) ∧
      (request.policyBindingUIDToResourceVersion = [] →
        ∀ k, lookupKV r.policyBindingUIDToResourceVersion k =
          match lastKnownValue with
          | some lk => lookupKV lk.policyBindingUIDToResourceVersion k
          | none => none) := by
  cases lastKnownValue with
  | none =>
    simp only [cacheReviewRecord, getReview_addReview]
    refine ⟨_, if_pos trivial, rfl, rfl, ?_, ?_, ?_, ?_, ?_⟩
    · by_cases h : request.namespaceResourceVersion = ""
      · simp [h]
      · simp [h, if_pos ((length_pos_iff_ne_empty _).mpr h)]
    · intro k
      rw [lookupKV_overlayKV _ _ _ hreqp]
      rfl
    · intro k
      rw [lookupKV_overlayKV _ _ _ hreqb]
      rfl
    · intro hempty k
      simp only [hempty]
      rw [lookupKV_overlayKV _ _ _ (by simp [KeysNodup])]
      rfl
    · intro hempty k
      simp only [hempty]
      rw [lookupKV_overlayKV _ _ _ (by simp [KeysNodup])]
      rfl
  | some lk =>
    have hp := hlkp lk rfl
    have hb := hlkb lk rfl
    simp only [cacheReviewRecord, getReview_addReview]
    refine ⟨_, if_pos trivial, rfl, rfl, ?_, ?_, ?_, ?_, ?_⟩
    · by_cases h : request.namespaceResourceVersion = ""
      · simp [h]
      · simp [h, if_pos ((length_pos_iff_ne_empty _).mpr h)]
    · intro k
      rw [lookupKV_overlayKV _ _ _ hreqp, lookupKV_overlayKV _ _ _ hp]
      rw [lookupKV_nil, kvOr_none]
    · intro k
      rw [lookupKV_overlayKV _ _ _ hreqb, lookupKV_overlayKV _ _ _ hb]
      rw [lookupKV_nil, kvOr_none]
    · intro hempty k
      simp only [hempty]
      rw [lookupKV_overlayKV _ _ _ (by simp [KeysNodup]), lookupKV_overlayKV _ _ _ hp]
      rw [lookupKV_nil, kvOr_none]
      rfl
    · intro hempty k
      simp only [hempty]
      rw [lookupKV_overlayKV _ _ _ (by simp [KeysNodup]), lookupKV_overlayKV _ _ _ hb]
      rw [lookupKV_nil, kvOr_none]
      rfl

/-- C2 witness: a concrete request mentioning only a policy UID, cached over
a concrete last-known record; the stored record exists for its namespace. -/
theorem cacheReviewRecord_spec_witness :
    (getReview (cacheReviewRecord
      { ns := "a", namespaceResourceVersion := "",
        policyUIDToResourceVersion := [("p", "2")],
        policyBindingUIDToResourceVersion := [] }
      (some
        { ns := "a", namespaceResourceVersion := "5",
          policyUIDToResourceVersion := [("p", "1")],
          policyBindingUIDToResourceVersion := [("b", "7")],
          users := ["alice"], groups := [] })
      { users := ["alice"], groups := [], evaluationError := "" } []) "a").isSome := by
  obtain ⟨r, hr, -⟩ := cacheReviewRecord_spec
    { ns := "a", namespaceResourceVersion := "",
      policyUIDToResourceVersion := [("p", "2")],
      policyBindingUIDToResourceVersion := [] }
    (some
      { ns := "a", namespaceResourceVersion := "5",
        policyUIDToResourceVersion := [("p", "1")],
        policyBindingUIDToResourceVersion := [("b", "7")],
        users := ["alice"], groups := [] })
    { users := ["alice"], groups := [], evaluationError := "" } []
    (by decide) (by decide)
    (fun lk h => by injection h with h2; subst h2; decide)
    (fun lk h => by injection h with h2; subst h2; decide)
  rw [hr]
  rfl

theorem getRecord_addRecord (s : SubjectStore) (r : subjectRecord) (k : String) :
    getRecord (addRecord s r) k = if r.subject = k then some r else getRecord s k := by
  induction s with
  | nil => rfl
  | cons x rest ih =>
    by_cases hx : x.subject = r.subject
    · simp only [addRecord, if_pos hx, getRecord]
      by_cases hk : r.subject = k
      · simp [hk]
      · have hxk : ¬ x.subject = k := by rw [hx]; exact hk
        simp [hk, getRecord, hxk]
    · simp only [addRecord, if_neg hx, getRecord]
      by_cases hxk : x.subject = k
      · have hrk : ¬ r.subject = k := by
          rw [← hxk]
          exact fun h => hx h.symm
        simp [getRecord, hxk, hrk]
      · simp [getRecord, hxk, ih]

theorem getRecord_subject (s : SubjectStore) (k : String) (r : subjectRecord)
    (h : getRecord s k = some r) : r.subject = k := by
  induction s with
  | nil => cases h
  | cons x rest ih =>
    by_cases hx : x.subject = k
    · simp only [getRecord, if_pos hx] at h
      injection h with h2
      rw [← h2]
      exact hx
    · simp only [getRecord, if_neg hx] at h
      exact ih h

theorem addSubjectsToNamespace_mem (subjects : List String) (store : SubjectStore)
    (ns s : String)
    (h : s ∈ subjects ∨ ∃ r, getRecord store s = some r ∧ ns ∈ r.namespaces) :
    ∃ r, getRecord (addSubjectsToNamespace store subjects ns) s = some r ∧
      ns ∈ r.namespaces := by
  induction subjects generalizing store with
  | nil =>
    rcases h with h | h
    · cases h
    · exact h
  | cons a rest ih =>
    simp only [addSubjectsToNamespace]
    by_cases hs : s ∈ rest
    · exact ih _ (Or.inl hs)
    · have hsplit : s = a ∨ ∃ r, getRecord store s = some r ∧ ns ∈ r.namespaces := by
        rcases h with h | h
        · rcases List.mem_cons.mp h with h | h
          · exact Or.inl h
          · exact absurd h hs
        · exact Or.inr h
      refine ih _ (Or.inr ?_)
      by_cases hsa : s = a
      · subst hsa
        cases hget : getRecord store s with
        | some r =>
          have hsub : r.subject = s := getRecord_subject _ _ _ hget
          simp only [hget]
          refine ⟨{ r with namespaces := insert ns r.namespaces },
            ?_, Finset.mem_insert_self _ _⟩
          rw [getRecord_addRecord]
          simp [hsub]
        | none =>
          simp only [hget]
          refine ⟨{ subject := s, namespaces := {ns} }, ?_, Finset.mem_singleton_self _⟩
          rw [getRecord_addRecord]
          simp
      · rcases hsplit with rfl | ⟨r, hr, hmem⟩
        · exact absurd rfl hsa
        · cases hget : getRecord store a with
          | some ra =>
            have hsuba : ra.subject = a := getRecord_subject _ _ _ hget
            simp only [hget]
            refine ⟨r, ?_, hmem⟩
            rw [getRecord_addRecord]
            have hne : ¬ ra.subject = s := by
              rw [hsuba]
              exact fun hh => hsa hh.symm
            simp [hne, hr]
          | none =>
            simp only [hget]
            refine ⟨r, ?_, hmem⟩
            rw [getRecord_addRecord]
            have hne : ¬ (a = s) := fun hh => hsa hh.symm
            simp [hne, hr]

theorem cacheReviewRecord_users_groups (request : reviewRequest)
    (lastKnownValue : Option reviewRecord) (review : Review) (store : ReviewStore) :
    ∃ r, getReview (cacheReviewRecord request lastKnownValue review store) request.ns = some r ∧
      r.users = review.users ∧ r.groups = review.groups := by
  cases lastKnownValue with
  | none =>
    simp only [cacheReviewRecord, getReview_addReview]
    exact ⟨_, if_pos trivial, rfl, rfl⟩
  | some lk =>
    simp only [cacheReviewRecord, getReview_addReview]
    exact ⟨_, if_pos trivial, rfl, rfl⟩

/-- C5: when the review is not skipped and the reviewer returns an error,
`syncRequest` returns that error and leaves every store untouched and fires
no notification. -/
theorem syncRequest_reviewer_error (reviewer : String → Except String Review)
    (request : reviewRequest) (us gs : SubjectStore) (rs : ReviewStore) (e : String)
    (hskip : skipReview (some request) (lastKnown rs request.ns) = false)
    (herr : reviewer request.ns = Except.error e) :
    syncRequest reviewer request us gs rs = ⟨us, gs, rs, [], some e⟩ := by
  simp only [syncRequest, hskip, herr]
  rfl

/-- C5 witness: a concrete failing reviewer leaves concrete stores exactly
as they were and returns the error. -/
theorem syncRequest_reviewer_error_witness :
    syncRequest (fun _ => Except.error "boom")
      { ns := "a", namespaceResourceVersion := "1",
        policyUIDToResourceVersion := [], policyBindingUIDToResourceVersion := [] }
      [] [] [] = ⟨[], [], [], [], some "boom"⟩ :=
  syncRequest_reviewer_error (fun _ => Except.error "boom")
    { ns := "a", namespaceResourceVersion := "1",
      policyUIDToResourceVersion := [], policyBindingUIDToResourceVersion := [] }
    [] [] [] "boom" (by decide) rfl

/-- C6: when the review succeeds with a non-empty evaluation error,
`syncRequest` returns that string as the error, and the returned stores
already carry every update: the review record is cached with the review's
users and groups, every reviewed user and group has the namespace in its
subject record, and the watcher notification is present. -/
theorem syncRequest_evaluation_error (reviewer : String → Except String Review)
    (request : reviewRequest) (us gs : SubjectStore) (rs : ReviewStore) (review : Review)
    (hskip : skipReview (some request) (lastKnown rs request.ns) = false)
    (hok : reviewer request.ns = Except.ok review)
    (he : review.evaluationError ≠ "") :
    (syncRequest reviewer request us gs rs).err = some review.evaluationError ∧
    (∃ r, getReview (syncRequest reviewer request us gs rs).reviewStore request.ns = some r ∧
      r.users = review.users ∧ r.groups = review.groups) ∧
    (∀ u ∈ review.users,
      ∃ sr, getRecord (syncRequest reviewer request us gs rs).userStore u = some sr ∧
        request.ns ∈ sr.namespaces) ∧
    (∀ g ∈ review.groups,
      ∃ sr, getRecord (syncRequest reviewer request us gs rs).groupStore g = some sr ∧
        request.ns ∈ sr.namespaces) ∧
    (syncRequest reviewer request us gs rs).notifications =
      [(request.ns, review.users.toFinset, review.groups.toFinset)] := by
  have hout : syncRequest reviewer request us gs rs =
      ⟨addSubjectsToNamespace
          (deleteNamespaceFromSubjects us
            ((match lastKnown rs request.ns with
              | some lk => lk.users.toFinset \ review.users.toFinset
              | none => ∅).sort (· ≤ ·)) request.ns)
          review.users request.ns,
        addSubjectsToNamespace
          (deleteNamespaceFromSubjects gs
            ((match lastKnown rs request.ns with
              | some lk => lk.groups.toFinset \ review.groups.toFinset
              | none => ∅).sort (· ≤ ·)) request.ns)
          review.groups request.ns,
        cacheReviewRecord request (lastKnown rs request.ns) review rs,
        [(request.ns, review.users.toFinset, review.groups.toFinset)],
        if 0 < review.evaluationError.length then some review.evaluationError else none⟩ := by
    simp [syncRequest, hskip, hok]
  rw [hout]
  refine ⟨?_, ?_, ?_, ?_, rfl⟩
  · simp [if_pos ((length_pos_iff_ne_empty _).mpr he)]
  · exact cacheReviewRecord_users_groups request (lastKnown rs request.ns) review rs
  · intro u hu
    exact addSubjectsToNamespace_mem _ _ _ _ (Or.inl hu)
  · intro g hg
    exact addSubjectsToNamespace_mem _ _ _ _ (Or.inl hg)

/-- C6 witness: a concrete review with an evaluation warning still returns
the error while the stores carry the updates. -/
theorem syncRequest_evaluation_error_witness :
    (syncRequest (fun _ => Except.ok { users := ["alice"], groups := [], evaluationError := "warn" })
      { ns := "a", namespaceResourceVersion := "1",
        policyUIDToResourceVersion := [], policyBindingUIDToResourceVersion := [] }
      [] [] []).err = some "warn" :=
  (syncRequest_evaluation_error
    (fun _ => Except.ok { users := ["alice"], groups := [], evaluationError := "warn" })
    { ns := "a", namespaceResourceVersion := "1",
      policyUIDToResourceVersion := [], policyBindingUIDToResourceVersion := [] }
    [] [] [] { users := ["alice"], groups := [], evaluationError := "warn" }
    (by decide) rfl (by decide)).1

/-- C4 (code bug): at a concrete input where the stored cluster-policy set
differs from the freshly listed one and the binding lister succeeds,
`invalidateCache` correctly reports the change, but — because the stored
policy field aliases the temporary set that the binding pass clears and
refills — it leaves the stored cluster-policy resource-version set equal to
the binding resource-version set instead of the newly computed policy set. -/
theorem invalidateCache_aliasing_bug :
    (invalidateCache ∅ ∅ (some ["1"]) (some ["2"])).1 = true ∧
    (invalidateCache ∅ ∅ (some ["1"]) (some ["2"])).2.1 = (["2"] : List String).toFinset ∧
    (invalidateCache ∅ ∅ (some ["1"]) (some ["2"])).2.1 ≠ (["1"] : List String).toFinset := by
  refine ⟨?_, ?_, ?_⟩ <;> decide

/-- C7: when the skip oracle reports skip, `synchronize` returns the state
unchanged with no notifications, and its result does not depend on anything
in the environment beyond the two version tokens: the reviewer and the
listers are never consulted. -/
theorem synchronize_skip_frame (env : Env) (st : ACState)
    (h : (SkipSynchronize st.lastState
      [env.lastSyncResourceVersion, env.policyLastSyncResourceVersion]).1 = true) :
    synchronize env st = (st, []) ∧
    ∀ env' : Env, env'.lastSyncResourceVersion = env.lastSyncResourceVersion →
      env'.policyLastSyncResourceVersion = env.policyLastSyncResourceVersion →
      synchronize env' st = (st, []) := by
  constructor
  · simp [synchronize, h]
  · intro env' h1 h2
    have h' : (SkipSynchronize st.lastState
        [env'.lastSyncResourceVersion, env'.policyLastSyncResourceVersion]).1 = true := by
      rw [h1, h2]
      exact h
    simp [synchronize, h']

/-- C7 witness: a concrete state whose last-state token matches the
environment tokens is returned untouched. -/
theorem synchronize_skip_frame_witness :
    synchronize
      { namespaces := [("a", "1")], policies := some [], policyBindings := some [],
        clusterPolicies := some [], clusterBindings := some [],
        reviewer := fun _ => Except.error "e",
        lastSyncResourceVersion := "x", policyLastSyncResourceVersion := "y" }
      { allKnownNamespaces := ∅, userSubjectRecordStore := [],
        groupSubjectRecordStore := [], reviewRecordStore := [],
        clusterPolicyResourceVersions := ∅, clusterBindingResourceVersions := ∅,
        lastState := "x,y" } =
      ({ allKnownNamespaces := ∅, userSubjectRecordStore := [],
          groupSubjectRecordStore := [], reviewRecordStore := [],
          clusterPolicyResourceVersions := ∅, clusterBindingResourceVersions := ∅,
          lastState := "x,y" }, []) := by
  exact (synchronize_skip_frame
    { namespaces := [("a", "1")], policies := some [], policyBindings := some [],
      clusterPolicies := some [], clusterBindings := some [],
      reviewer := fun _ => Except.error "e",
      lastSyncResourceVersion := "x", policyLastSyncResourceVersion := "y" }
    { allKnownNamespaces := ∅, userSubjectRecordStore := [],
      groupSubjectRecordStore := [], reviewRecordStore := [],
      clusterPolicyResourceVersions := ∅, clusterBindingResourceVersions := ∅,
      lastState := "x,y" } (by decide)).1

theorem mem_addRecord (s : SubjectStore) (r x : subjectRecord)
    (h : x ∈ addRecord s r) : x = r ∨ x ∈ s := by
  induction s with
  | nil => simpa [addRecord] using h
  | cons y rest ih =>
    by_cases hy : y.subject = r.subject
    · simp only [addRecord, if_pos hy, List.mem_cons] at h
      rcases h with h | h
      · exact Or.inl h
      · exact Or.inr (List.mem_cons_of_mem _ h)
    · simp only [addRecord, if_neg hy, List.mem_cons] at h
      rcases h with h | h
      · exact Or.inr (h ▸ List.mem_cons_self _ _)
      · rcases ih h with h | h
        · exact Or.inl h
        · exact Or.inr (List.mem_cons_of_mem _ h)

theorem mem_deleteRecord (s : SubjectStore) (k : String) (x : subjectRecord)
    (h : x ∈ deleteRecord s k) : x ∈ s ∧ x.subject ≠ k := by
  induction s with
  | nil => cases h
  | cons y rest ih =>
    by_cases hy : y.subject = k
    · simp only [deleteRecord, if_pos hy] at h
      obtain ⟨h1, h2⟩ := ih h
      exact ⟨List.mem_cons_of_mem _ h1, h2⟩
    · simp only [deleteRecord, if_neg hy, List.mem_cons] at h
      rcases h with h | h
      · subst h
        exact ⟨List.mem_cons_self _ _, hy⟩
      · obtain ⟨h1, h2⟩ := ih h
        exact ⟨List.mem_cons_of_mem _ h1, h2⟩

theorem noEmptySubjects_deleteNamespaceFromSubjects (subjects : List String)
    (store : SubjectStore) (ns : String) (h : noEmptySubjects store) :
    noEmptySubjects (deleteNamespaceFromSubjects store subjects ns) := by
  induction subjects generalizing store with
  | nil => exact h
  | cons a rest ih =>
    simp only [deleteNamespaceFromSubjects]
    apply ih
    cases hget : getRecord store a with
    | none => simpa [hget] using h
    | some r =>
      simp only [hget]
      by_cases hrem : r.namespaces.erase ns = ∅
      · rw [if_pos hrem]
        intro x hx
        exact h x (mem_deleteRecord _ _ _ hx).1
      · rw [if_neg hrem]
        intro x hx
        rcases mem_addRecord _ _ _ hx with rfl | hx
        · exact hrem
        · exact h x hx

theorem noEmptySubjects_addSubjectsToNamespace (subjects : List String)
    (store : SubjectStore) (ns : String) (h : noEmptySubjects store) :
    noEmptySubjects (addSubjectsToNamespace store subjects ns) := by
  induction subjects generalizing store with
  | nil => exact h
  | cons a rest ih =>
    simp only [addSubjectsToNamespace]
    apply ih
    cases hget : getRecord store a with
    | none =>
      simp only [hget]
      intro x hx
      rcases mem_addRecord _ _ _ hx with rfl | hx
      · exact Finset.singleton_ne_empty _
      · exact h x hx
    | some r =>
      simp only [hget]
      intro x hx
      rcases mem_addRecord _ _ _ hx with rfl | hx
      · exact Finset.insert_ne_empty _ _
      · exact h x hx

theorem noEmptySubjects_syncRequest (reviewer : String → Except String Review)
    (request : reviewRequest) (us gs : SubjectStore) (rs : ReviewStore)
    (hu : noEmptySubjects us) (hg : noEmptySubjects gs) :
    noEmptySubjects (syncRequest reviewer request us gs rs).userStore ∧
    noEmptySubjects (syncRequest reviewer request us gs rs).groupStore := by
  by_cases hb : skipReview (some request) (lastKnown rs request.ns) = true
  · simp only [syncRequest, hb, if_true]
    exact ⟨hu, hg⟩
  · rw [Bool.not_eq_true] at hb
    cases hrev : reviewer request.ns with
    | error e =>
      simp only [syncRequest, hb, hrev, Bool.false_eq_true, if_false]
      exact ⟨hu, hg⟩
    | ok review =>
      simp only [syncRequest, hb, hrev, Bool.false_eq_true, if_false]
      exact ⟨noEmptySubjects_addSubjectsToNamespace _ _ _
          (noEmptySubjects_deleteNamespaceFromSubjects _ _ _ hu),
        noEmptySubjects_addSubjectsToNamespace _ _ _
          (noEmptySubjects_deleteNamespaceFromSubjects _ _ _ hg)⟩

theorem noEmptySubjects_purgeLoop (newNs : Finset String) (items : List reviewRecord)
    (acc : SubjectStore × SubjectStore × ReviewStore)
    (hu : noEmptySubjects acc.1) (hg : noEmptySubjects acc.2.1) :
    noEmptySubjects (purgeLoop newNs items acc).1 ∧
    noEmptySubjects (purgeLoop newNs items acc).2.1 := by
  induction items generalizing acc with
  | nil => exact ⟨hu, hg⟩
  | cons rr rest ih =>
    obtain ⟨u, g, ss⟩ := acc
    by_cases hns : rr.ns ∈ newNs
    · simp only [purgeLoop, if_pos hns]
      exact ih _ hu hg
    · simp only [purgeLoop, if_neg hns]
      exact ih _ (noEmptySubjects_deleteNamespaceFromSubjects _ _ _ hu)
        (noEmptySubjects_deleteNamespaceFromSubjects _ _ _ hg)

theorem noEmptySubjects_purge (oldNs newNs : Finset String) (us gs : SubjectStore)
    (rs : ReviewStore) (hu : noEmptySubjects us) (hg : noEmptySubjects gs) :
    noEmptySubjects (purgeDeletedNamespaces oldNs newNs us gs rs).1 ∧
    noEmptySubjects (purgeDeletedNamespaces oldNs newNs us gs rs).2.1 :=
  noEmptySubjects_purgeLoop newNs rs (us, gs, rs) hu hg

theorem noEmptySubjects_runRequests (reviewer : String → Except String Review)
    (reqs : List reviewRequest) (us gs : SubjectStore) (rs : ReviewStore)
    (notifs : List Notification)
    (hu : noEmptySubjects us) (hg : noEmptySubjects gs) :
    noEmptySubjects (runRequests reviewer reqs us gs rs notifs).1 ∧
    noEmptySubjects (runRequests reviewer reqs us gs rs notifs).2.1 := by
  induction reqs generalizing us gs rs notifs with
  | nil => exact ⟨hu, hg⟩
  | cons req rest ih =>
    simp only [runRequests]
    exact ih _ _ _ _ (noEmptySubjects_syncRequest reviewer req us gs rs hu hg).1
      (noEmptySubjects_syncRequest reviewer req us gs rs hu hg).2

theorem noEmptySubjects_synchronize (env : Env) (st : ACState)
    (hu : noEmptySubjects st.userSubjectRecordStore)
    (hg : noEmptySubjects st.groupSubjectRecordStore) :
    noEmptySubjects (synchronize env st).1.userSubjectRecordStore ∧
    noEmptySubjects (synchronize env st).1.groupSubjectRecordStore := by
  have hnil : noEmptySubjects [] := by
    intro r hr
    cases hr
  have h0u : noEmptySubjects (if (invalidateCache st.clusterPolicyResourceVersions
      st.clusterBindingResourceVersions env.clusterPolicies env.clusterBindings).1
      then [] else st.userSubjectRecordStore) := by
    split
    · exact hnil
    · exact hu
  have h0g : noEmptySubjects (if (invalidateCache st.clusterPolicyResourceVersions
      st.clusterBindingResourceVersions env.clusterPolicies env.clusterBindings).1
      then [] else st.groupSubjectRecordStore) := by
    split
    · exact hnil
    · exact hg
  by_cases hb : (SkipSynchronize st.lastState
      [env.lastSyncResourceVersion, env.policyLastSyncResourceVersion]).1 = true
  · simp only [synchronize, hb, if_true]
    exact ⟨hu, hg⟩
  · rw [Bool.not_eq_true] at hb
    cases hpol : env.policies <;> cases hpb : env.policyBindings <;>
      · simp only [synchronize, hb, hpol, hpb, Bool.false_eq_true, if_false]
        refine ⟨?_, ?_⟩ <;>
          repeat' first
            | exact h0u
            | exact h0g
            | refine (noEmptySubjects_purge _ _ _ _ _ ?_ ?_).1
            | refine (noEmptySubjects_purge _ _ _ _ _ ?_ ?_).2
            | refine (noEmptySubjects_runRequests _ _ _ _ _ _ ?_ ?_).1
            | refine (noEmptySubjects_runRequests _ _ _ _ _ _ ?_ ?_).2

/-- C9: invariant I2 (no subject record with an empty namespace set) is
preserved by `syncRequest`, by `purgeDeletedNamespaces`, and by a full
`synchronize` cycle, on both the user and the group subject stores. -/
theorem invariant_no_empty_subjects :
    (∀ (reviewer : String → Except String Review) (request : reviewRequest)
        (us gs : SubjectStore) (rs : ReviewStore),
      noEmptySubjects us → noEmptySubjects gs →
      noEmptySubjects (syncRequest reviewer request us gs rs).userStore ∧
      noEmptySubjects (syncRequest reviewer request us gs rs).groupStore) ∧
    (∀ (oldNs newNs : Finset String) (us gs : SubjectStore) (rs : ReviewStore),
      noEmptySubjects us → noEmptySubjects gs →
      noEmptySubjects (purgeDeletedNamespaces oldNs newNs us gs rs).1 ∧
      noEmptySubjects (purgeDeletedNamespaces oldNs newNs us gs rs).2.1) ∧
    (∀ (env : Env) (st : ACState),
      noEmptySubjects st.userSubjectRecordStore →
      noEmptySubjects st.groupSubjectRecordStore →
      noEmptySubjects (synchronize env st).1.userSubjectRecordStore ∧
      noEmptySubjects (synchronize env st).1.groupSubjectRecordStore) :=
  ⟨noEmptySubjects_syncRequest, noEmptySubjects_purge, noEmptySubjects_synchronize⟩

/-- C9 witness: one concrete syncRequest starting from stores satisfying the
invariant produces stores satisfying it. -/
theorem invariant_no_empty_subjects_witness :
    noEmptySubjects (syncRequest
      (fun _ => Except.ok { users := ["alice"], groups := [], evaluationError := "" })
      { ns := "a", namespaceResourceVersion := "1", policyUIDToResourceVersion := [],
        policyBindingUIDToResourceVersion := [] } [] [] []).userStore :=
  (invariant_no_empty_subjects.1
    (fun _ => Except.ok { users := ["alice"], groups := [], evaluationError := "" })
    { ns := "a", namespaceResourceVersion := "1", policyUIDToResourceVersion := [],
      policyBindingUIDToResourceVersion := [] } [] [] [] (by decide) (by decide)).1

theorem mem_collectKeys (us gs : SubjectStore) (username : String)
    (groups : List String) (k : String) :
    k ∈ collectKeys us gs username groups ↔
      (∃ r, getRecord us username = some r ∧ k ∈ r.namespaces) ∨
      ∃ g ∈ groups, ∃ r, getRecord gs g = some r ∧ k ∈ r.namespaces := by
  have hfold : ∀ (l : List String) (acc : Finset String),
      k ∈ l.foldl (unionGroupNamespaces gs) acc ↔
        k ∈ acc ∨ ∃ g ∈ l, ∃ r, getRecord gs g = some r ∧ k ∈ r.namespaces := by
    intro l
    induction l with
    | nil => simp
    | cons a rest ih =>
      intro acc
      simp only [List.foldl_cons]
      rw [ih]
      cases hget : getRecord gs a with
      | none =>
        simp only [unionGroupNamespaces, hget]
        constructor
        · rintro (h | ⟨g, hgmem, hp⟩)
          · exact Or.inl h
          · exact Or.inr ⟨g, List.mem_cons_of_mem _ hgmem, hp⟩
        · rintro (h | ⟨g, hgmem, hp⟩)
          · exact Or.inl h
          · rcases List.mem_cons.mp hgmem with rfl | hgmem
            · obtain ⟨r, hr, -⟩ := hp
              rw [hget] at hr
              cases hr
            · exact Or.inr ⟨g, hgmem, hp⟩
      | some ra =>
        simp only [unionGroupNamespaces, hget, Finset.mem_union]
        constructor
        · rintro ((h | h) | ⟨g, hgmem, hp⟩)
          · exact Or.inl h
          · exact Or.inr ⟨a, List.mem_cons_self _ _, ra, hget, h⟩
          · exact Or.inr ⟨g, List.mem_cons_of_mem _ hgmem, hp⟩
        · rintro (h | ⟨g, hgmem, hp⟩)
          · exact Or.inl (Or.inl h)
          · rcases List.mem_cons.mp hgmem with rfl | hgmem
            · obtain ⟨r, hr, hk⟩ := hp
              rw [hget] at hr
              injection hr with hr2
              subst hr2
              exact Or.inl (Or.inr hk)
            · exact Or.inr ⟨g, hgmem, hp⟩
  rw [collectKeys, hfold]
  cases hget : getRecord us username with
  | none => simp [userNamespaces, hget]
  | some r => simp [userNamespaces, hget]

/-- C10: `List` returns each accessible namespace at most once, in strictly
ascending lexicographic order, and a name appears exactly when it lies in the
union of the user's and the groups' namespace sets, exists in the namespace
store, and passes the scope filter. -/
theorem scopedList_spec (us gs : SubjectStore) (nsStore : KVMap)
    (allowed : Finset String) (username : String) (groups : List String) :
    (scopedList us gs nsStore allowed username groups).Sorted (· < ·) ∧
    (scopedList us gs nsStore allowed username groups).Nodup ∧
    (∀ k, k ∈ scopedList us gs nsStore allowed username groups ↔
      (((∃ r, getRecord us username = some r ∧ k ∈ r.namespaces) ∨
        ∃ g ∈ groups, ∃ r, getRecord gs g = some r ∧ k ∈ r.namespaces) ∧
       ((lookupKV nsStore k).isSome = true) ∧
       (("*" : String) ∈ allowed ∨ k ∈ allowed))) := by
  refine ⟨(Finset.sort_sorted_lt _).filter _, (Finset.sort_nodup _ _).filter _, ?_⟩
  intro k
  rw [scopedList, List.mem_filter, Finset.mem_sort, mem_collectKeys]
  simp [Bool.and_eq_true, Bool.or_eq_true, decide_eq_true_eq, and_assoc]

theorem getRecord_mem (s : SubjectStore) (k : String) (r : subjectRecord)
    (h : getRecord s k = some r) : r ∈ s := by
  induction s with
  | nil => cases h
  | cons x rest ih =>
    by_cases hx : x.subject = k
    · simp only [getRecord, if_pos hx] at h
      injection h with h2
      subst h2
      exact List.mem_cons_self _ _
    · simp only [getRecord, if_neg hx] at h
      exact List.mem_cons_of_mem _ (ih h)

theorem getRecord_eq_none_iff (s : SubjectStore) (k : String) :
    getRecord s k = none ↔ ∀ x ∈ s, x.subject ≠ k := by
  induction s with
  | nil => simp [getRecord]
  | cons x rest ih =>
    by_cases hx : x.subject = k
    · simp only [getRecord, if_pos hx]
      constructor
      · intro h
        cases h
      · intro h
        exact absurd hx (h x (List.mem_cons_self _ _))
    · simp only [getRecord, if_neg hx]
      rw [ih]
      constructor
      · intro h y hy
        rcases List.mem_cons.mp hy with rfl | hy
        · exact hx
        · exact h y hy
      · intro h y hy
        exact h y (List.mem_cons_of_mem _ hy)

theorem hasPair_of_delete (subjects : List String) (store : SubjectStore)
    (ns0 subj n : String)
    (h : hasPair (deleteNamespaceFromSubjects store subjects ns0) subj n) :
    hasPair store subj n := by
  induction subjects generalizing store with
  | nil => exact h
  | cons a rest ih =>
    simp only [deleteNamespaceFromSubjects] at h
    have h' := ih _ h
    cases hget : getRecord store a with
    | none =>
      simp only [hget] at h'
      exact h'
    | some r =>
      simp only [hget] at h'
      by_cases hrem : r.namespaces.erase ns0 = ∅
      · rw [if_pos hrem] at h'
        obtain ⟨x, hx, hsub, hn⟩ := h'
        exact ⟨x, (mem_deleteRecord _ _ _ hx).1, hsub, hn⟩
      · rw [if_neg hrem] at h'
        obtain ⟨x, hx, hsub, hn⟩ := h'
        rcases mem_addRecord _ _ _ hx with rfl | hx
        · exact ⟨r, getRecord_mem _ _ _ hget, hsub, Finset.mem_of_mem_erase hn⟩
        · exact ⟨x, hx, hsub, hn⟩

theorem keys_deleteRecord_sublist (s : SubjectStore) (k : String) :
    ((deleteRecord s k).map subjectRecord.subject).Sublist
      (s.map subjectRecord.subject) := by
  induction s with
  | nil => simp [deleteRecord]
  | cons x rest ih =>
    by_cases hx : x.subject = k
    · simp only [deleteRecord, if_pos hx, List.map_cons]
      exact ih.cons _
    · simp only [deleteRecord, if_neg hx, List.map_cons]
      exact ih.cons₂ _

theorem keys_mem_addRecord (s : SubjectStore) (r : subjectRecord) (y : String)
    (h : y ∈ (addRecord s r).map subjectRecord.subject) :
    y = r.subject ∨ y ∈ s.map subjectRecord.subject := by
  simp only [List.mem_map] at h ⊢
  obtain ⟨x, hx, rfl⟩ := h
  rcases mem_addRecord _ _ _ hx with rfl | hx
  · exact Or.inl rfl
  · exact Or.inr ⟨x, hx, rfl⟩

theorem subjectKeysNodup_addRecord (s : SubjectStore) (r : subjectRecord)
    (h : SubjectKeysNodup s) : SubjectKeysNodup (addRecord s r) := by
  induction s with
  | nil => simp [SubjectKeysNodup, addRecord]
  | cons x rest ih =>
    simp only [SubjectKeysNodup, List.map_cons, List.nodup_cons] at h
    by_cases hx : x.subject = r.subject
    · simp only [SubjectKeysNodup, addRecord, if_pos hx, List.map_cons, List.nodup_cons]
      refine ⟨?_, h.2⟩
      rw [← hx]
      exact h.1
    · simp only [SubjectKeysNodup, addRecord, if_neg hx, List.map_cons, List.nodup_cons]
      refine ⟨?_, ih h.2⟩
      intro hmem
      rcases keys_mem_addRecord _ _ _ hmem with h2 | h2
      · exact hx h2
      · exact h.1 h2

theorem subjectKeysNodup_deleteRecord (s : SubjectStore) (k : String)
    (h : SubjectKeysNodup s) : SubjectKeysNodup (deleteRecord s k) :=
  List.Nodup.sublist (keys_deleteRecord_sublist s k) h

theorem subjectKeysNodup_deleteNamespaceFromSubjects (subjects : List String)
    (store : SubjectStore) (ns0 : String) (h : SubjectKeysNodup store) :
    SubjectKeysNodup (deleteNamespaceFromSubjects store subjects ns0) := by
  induction subjects generalizing store with
  | nil => exact h
  | cons a rest ih =>
    simp only [deleteNamespaceFromSubjects]
    apply ih
    cases hget : getRecord store a with
    | none => simpa [hget] using h
    | some r =>
      simp only [hget]
      by_cases hrem : r.namespaces.erase ns0 = ∅
      · rw [if_pos hrem]
        exact subjectKeysNodup_deleteRecord _ _ h
      · rw [if_neg hrem]
        exact subjectKeysNodup_addRecord _ _ h

theorem mem_addRecord_subject_eq (s : SubjectStore) (r x : subjectRecord)
    (hnod : SubjectKeysNodup s) (hx : x ∈ addRecord s r)
    (hsub : x.subject = r.subject) : x = r := by
  induction s with
  | nil =>
    simp only [addRecord, List.mem_singleton] at hx
    exact hx
  | cons y rest ih =>
    simp only [SubjectKeysNodup, List.map_cons, List.nodup_cons] at hnod
    by_cases hy : y.subject = r.subject
    · simp only [addRecord, if_pos hy, List.mem_cons] at hx
      rcases hx with rfl | hx
      · rfl
      · exfalso
        apply hnod.1
        rw [hy, ← hsub]
        exact List.mem_map.mpr ⟨x, hx, rfl⟩
    · simp only [addRecord, if_neg hy, List.mem_cons] at hx
      rcases hx with rfl | hx
      · exact absurd hsub hy
      · exact ih hnod.2 hx

theorem not_hasPair_delete_self (subjects : List String) (store : SubjectStore)
    (ns0 subj : String) (hnod : SubjectKeysNodup store) (hmem : subj ∈ subjects) :
    ¬ hasPair (deleteNamespaceFromSubjects store subjects ns0) subj ns0 := by
  induction subjects generalizing store with
  | nil => cases hmem
  | cons a rest ih =>
    simp only [deleteNamespaceFromSubjects]
    by_cases hsa : subj = a
    · subst hsa
      intro hfinal
      have hstore' := hasPair_of_delete _ _ _ _ _ hfinal
      cases hget : getRecord store subj with
      | none =>
        simp only [hget] at hstore'
        obtain ⟨x, hx, hsub, -⟩ := hstore'
        exact ((getRecord_eq_none_iff store subj).mp hget) x hx hsub
      | some r =>
        simp only [hget] at hstore'
        by_cases hrem : r.namespaces.erase ns0 = ∅
        · rw [if_pos hrem] at hstore'
          obtain ⟨x, hx, hsub, -⟩ := hstore'
          exact (mem_deleteRecord _ _ _ hx).2 hsub
        · rw [if_neg hrem] at hstore'
          obtain ⟨x, hx, hsub, hn⟩ := hstore'
          have hrsub : r.subject = subj := getRecord_subject _ _ _ hget
          have hx2 : x = { r with namespaces := r.namespaces.erase ns0 } := by
            refine mem_addRecord_subject_eq _ _ _ hnod hx ?_
            show x.subject = r.subject
            rw [hsub, hrsub]
          rw [hx2] at hn
          exact Finset.not_mem_erase _ _ hn
    · have hmem' : subj ∈ rest := by
        rcases List.mem_cons.mp hmem with h | h
        · exact absurd h hsa
        · exact h
      cases hget : getRecord store a with
      | none =>
        simp only [hget]
        exact ih _ hnod hmem'
      | some r =>
        simp only [hget]
        by_cases hrem : r.namespaces.erase ns0 = ∅
        · rw [if_pos hrem]
          exact ih _ (subjectKeysNodup_deleteRecord _ _ hnod) hmem'
        · rw [if_neg hrem]
          exact ih _ (subjectKeysNodup_addRecord _ _ hnod) hmem'

theorem mem_deleteReview (s : ReviewStore) (k : String) (x : reviewRecord)
    (h : x ∈ deleteReview s k) : x ∈ s ∧ x.ns ≠ k := by
  induction s with
  | nil => cases h
  | cons y rest ih =>
    by_cases hy : y.ns = k
    · simp only [deleteReview, if_pos hy] at h
      obtain ⟨h1, h2⟩ := ih h
      exact ⟨List.mem_cons_of_mem _ h1, h2⟩
    · simp only [deleteReview, if_neg hy, List.mem_cons] at h
      rcases h with h | h
      · subst h
        exact ⟨List.mem_cons_self _ _, hy⟩
      · obtain ⟨h1, h2⟩ := ih h
        exact ⟨List.mem_cons_of_mem _ h1, h2⟩

theorem purgeLoop_review_subset (newNs : Finset String) (items : List reviewRecord)
    (acc : SubjectStore × SubjectStore × ReviewStore) (x : reviewRecord)
    (h : x ∈ (purgeLoop newNs items acc).2.2) : x ∈ acc.2.2 := by
  induction items generalizing acc with
  | nil => exact h
  | cons rr rest ih =>
    obtain ⟨u, g, ss⟩ := acc
    by_cases hns : rr.ns ∈ newNs
    · simp only [purgeLoop, if_pos hns] at h
      exact ih _ h
    · simp only [purgeLoop, if_neg hns] at h
      exact (mem_deleteReview _ _ _ (ih _ h)).1

theorem purgeLoop_user_subset (newNs : Finset String) (items : List reviewRecord)
    (acc : SubjectStore × SubjectStore × ReviewStore) (subj n : String)
    (h : hasPair (purgeLoop newNs items acc).1 subj n) : hasPair acc.1 subj n := by
  induction items generalizing acc with
  | nil => exact h
  | cons rr rest ih =>
    obtain ⟨u, g, ss⟩ := acc
    by_cases hns : rr.ns ∈ newNs
    · simp only [purgeLoop, if_pos hns] at h
      exact ih _ h
    · simp only [purgeLoop, if_neg hns] at h
      exact hasPair_of_delete _ _ _ _ _ (ih _ h)

theorem purgeLoop_group_subset (newNs : Finset String) (items : List reviewRecord)
    (acc : SubjectStore × SubjectStore × ReviewStore) (subj n : String)
    (h : hasPair (purgeLoop newNs items acc).2.1 subj n) : hasPair acc.2.1 subj n := by
  induction items generalizing acc with
  | nil => exact h
  | cons rr rest ih =>
    obtain ⟨u, g, ss⟩ := acc
    by_cases hns : rr.ns ∈ newNs
    · simp only [purgeLoop, if_pos hns] at h
      exact ih _ h
    · simp only [purgeLoop, if_neg hns] at h
      exact hasPair_of_delete _ _ _ _ _ (ih _ h)

theorem purgeLoop_review_killed (newNs : Finset String) (items : List reviewRecord)
    (acc : SubjectStore × SubjectStore × ReviewStore) (rr : reviewRecord)
    (hmem : rr ∈ items) (hns : rr.ns ∉ newNs) (x : reviewRecord)
    (hx : x ∈ (purgeLoop newNs items acc).2.2) : x.ns ≠ rr.ns := by
  induction items generalizing acc with
  | nil => cases hmem
  | cons h0 rest ih =>
    obtain ⟨u, g, ss⟩ := acc
    rcases List.mem_cons.mp hmem with rfl | hmem'
    · simp only [purgeLoop, if_neg hns] at hx
      have hsub := purgeLoop_review_subset _ _ _ _ hx
      exact (mem_deleteReview _ _ _ hsub).2
    · by_cases hns0 : h0.ns ∈ newNs
      · simp only [purgeLoop, if_pos hns0] at hx
        exact ih _ hmem' hx
      · simp only [purgeLoop, if_neg hns0] at hx
        exact ih _ hmem' hx

theorem purgeLoop_user_killed (newNs : Finset String) (items : List reviewRecord)
    (acc : SubjectStore × SubjectStore × ReviewStore) (rr : reviewRecord) (subj : String)
    (hnod : SubjectKeysNodup acc.1)
    (hmem : rr ∈ items) (hns : rr.ns ∉ newNs) (hsubj : subj ∈ rr.users) :
    ¬ hasPair (purgeLoop newNs items acc).1 subj rr.ns := by
  induction items generalizing acc with
  | nil => cases hmem
  | cons h0 rest ih =>
    obtain ⟨u, g, ss⟩ := acc
    rcases List.mem_cons.mp hmem with rfl | hmem'
    · simp only [purgeLoop, if_neg hns]
      intro hfinal
      have h1 := purgeLoop_user_subset _ _ _ _ _ hfinal
      exact not_hasPair_delete_self _ _ _ _ hnod hsubj h1
    · by_cases hns0 : h0.ns ∈ newNs
      · simp only [purgeLoop, if_pos hns0]
        exact ih _ hnod hmem'
      · simp only [purgeLoop, if_neg hns0]
        exact ih _ (subjectKeysNodup_deleteNamespaceFromSubjects _ _ _ hnod) hmem' 

theorem purgeLoop_group_killed (newNs : Finset String) (items : List reviewRecord)
    (acc : SubjectStore × SubjectStore × ReviewStore) (rr : reviewRecord) (subj : String)
    (hnod : SubjectKeysNodup acc.2.1)
    (hmem : rr ∈ items) (hns : rr.ns ∉ newNs) (hsubj : subj ∈ rr.groups) :
    ¬ hasPair (purgeLoop newNs items acc).2.1 subj rr.ns := by
  induction items generalizing acc with
  | nil => cases hmem
  | cons h0 rest ih =>
    obtain ⟨u, g, ss⟩ := acc
    rcases List.mem_cons.mp hmem with rfl | hmem'
    · simp only [purgeLoop, if_neg hns]
      intro hfinal
      have h1 := purgeLoop_group_subset _ _ _ _ _ hfinal
      exact not_hasPair_delete_self _ _ _ _ hnod hsubj h1
    · by_cases hns0 : h0.ns ∈ newNs
      · simp only [purgeLoop, if_pos hns0]
        exact ih _ hnod hmem'
      · simp only [purgeLoop, if_neg hns0]
        exact ih _ (subjectKeysNodup_deleteNamespaceFromSubjects _ _ _ hnod) hmem' 

/-- C3: under key-uniqueness of the subject stores and the bijective-indexing
invariant (every namespace listed by a subject record outside `newKnown` is
backed by a review record naming that subject), `purgeDeletedNamespaces`
leaves no subject record listing a purged namespace, no review record keyed
by one, and fires exactly one empty-set notification per namespace in
`oldKnown` minus `newKnown`. -/
theorem purgeDeletedNamespaces_spec (oldNs newNs : Finset String)
    (us gs : SubjectStore) (rs : ReviewStore)
    (hukeys : SubjectKeysNodup us) (hgkeys : SubjectKeysNodup gs)
    (hucov : ∀ r ∈ us, ∀ n ∈ r.namespaces, n ∉ newNs →
      ∃ rr ∈ rs, rr.ns = n ∧ r.subject ∈ rr.users)
    (hgcov : ∀ r ∈ gs, ∀ n ∈ r.namespaces, n ∉ newNs →
      ∃ rr ∈ rs, rr.ns = n ∧ r.subject ∈ rr.groups) :
    (∀ r ∈ (purgeDeletedNamespaces oldNs newNs us gs rs).1,
      ∀ n ∈ r.namespaces, n ∈ newNs) ∧
    (∀ r ∈ (purgeDeletedNamespaces oldNs newNs us gs rs).2.1,
      ∀ n ∈ r.namespaces, n ∈ newNs) ∧
    (∀ rr ∈ (purgeDeletedNamespaces oldNs newNs us gs rs).2.2.1, rr.ns ∈ newNs) ∧
    (∀ note ∈ (purgeDeletedNamespaces oldNs newNs us gs rs).2.2.2,
      note.2.1 = ∅ ∧ note.2.2 = ∅) ∧
    (∀ n : String,
      ((purgeDeletedNamespaces oldNs newNs us gs rs).2.2.2.map Prod.fst).count n =
        if n ∈ oldNs \ newNs then 1 else 0) := by
  refine ⟨?_, ?_, ?_, ?_, ?_⟩
  · intro r hr n hn
    by_contra hnot
    have hpair : hasPair (purgeLoop newNs rs (us, gs, rs)).1 r.subject n := ⟨r, hr, rfl, hn⟩
    obtain ⟨r0, hr0, hsub0, hn0⟩ := purgeLoop_user_subset _ _ _ _ _ hpair
    obtain ⟨rr, hrr, hrrns, hrrsub⟩ := hucov r0 hr0 n hn0 hnot
    have hkill := purgeLoop_user_killed newNs rs (us, gs, rs) rr r.subject hukeys hrr
      (by rw [hrrns]; exact hnot) (by rw [← hsub0]; exact hrrsub)
    rw [hrrns] at hkill
    exact hkill hpair
  · intro r hr n hn
    by_contra hnot
    have hpair : hasPair (purgeLoop newNs rs (us, gs, rs)).2.1 r.subject n :=
      ⟨r, hr, rfl, hn⟩
    obtain ⟨r0, hr0, hsub0, hn0⟩ := purgeLoop_group_subset _ _ _ _ _ hpair
    obtain ⟨rr, hrr, hrrns, hrrsub⟩ := hgcov r0 hr0 n hn0 hnot
    have hkill := purgeLoop_group_killed newNs rs (us, gs, rs) rr r.subject hgkeys hrr
      (by rw [hrrns]; exact hnot) (by rw [← hsub0]; exact hrrsub)
    rw [hrrns] at hkill
    exact hkill hpair
  · intro rr' hmem
    by_contra hnot
    have hsub : rr' ∈ rs := purgeLoop_review_subset _ _ _ _ hmem
    exact purgeLoop_review_killed newNs rs (us, gs, rs) rr' hsub hnot rr' hmem rfl
  · intro note hmemn
    obtain ⟨n, hn, rfl⟩ := List.mem_map.mp hmemn
    exact ⟨rfl, rfl⟩
  · intro n
    have hmap : (purgeDeletedNamespaces oldNs newNs us gs rs).2.2.2.map Prod.fst =
        (oldNs \ newNs).sort (· ≤ ·) := by
      simp [purgeDeletedNamespaces, List.map_map, Function.comp_def]
    rw [hmap, List.count_eq_of_nodup (Finset.sort_nodup _ _)]
    by_cases hmem : n ∈ oldNs \ newNs
    · simp [Finset.mem_sort, hmem]
    · simp [Finset.mem_sort, hmem]

/-- C3 witness: purging namespace a (present in the old set, absent from the
new one) fires exactly one notification for it. -/
theorem purgeDeletedNamespaces_spec_witness :
    (((purgeDeletedNamespaces {"a"} ∅ [{ subject := "alice", namespaces := {"a"} }] []
      [{ ns := "a", namespaceResourceVersion := "1", policyUIDToResourceVersion := [],
         policyBindingUIDToResourceVersion := [], users := ["alice"],
         groups := [] }]).2.2.2.map Prod.fst).count "a") = 1 := by
  have h := purgeDeletedNamespaces_spec {"a"} ∅
    [{ subject := "alice", namespaces := {"a"} }] []
    [{ ns := "a", namespaceResourceVersion := "1", policyUIDToResourceVersion := [],
       policyBindingUIDToResourceVersion := [], users := ["alice"], groups := [] }]
    (by decide) (by decide) (by decide) (by decide)
  rw [h.2.2.2.2 "a"]
  decide

end ProjectAuth

